import Mathlib

/-!
Verification of the filename-resolution core of the `html_auto_rename`
repository. Two near-duplicate Python implementations are embedded:
the procedural script (`rename_html_files.py`) and the class-based
version (`html_renamer/rename_html_files.py`). File-system state is
modelled as a list of names, BeautifulSoup parsing of one file is
abstracted as a `ParseOutcome` (the text of the first
`h1.panel__title` element when the parse succeeds and finds one), and
`os.rename` failures are modelled by an oracle returning the error
message, if any, for a given (source, target) pair.
-/

/-- The characters removed by the sanitizer regex `[\\/:*?"<>|]`. -/
def invalidChars : List Char := ['\\', '/', ':', '*', '?', '"', '<', '>', '|']

/-- The whitespace characters matched by Python's `\s` (and stripped by
`str.strip`) for the inputs in scope: ASCII whitespace plus the Unicode
whitespace code points recognised by the `re` module on `str`. -/
def pySpaceChars : List Char :=
  ['\t', '\n', '\x0b', '\x0c', '\r', '\x1c', '\x1d', '\x1e', '\x1f', ' ',
   '\x85', '\xa0', ' ', ' ', ' ', ' ', ' ', ' ',
   ' ', ' ', ' ', ' ', ' ', ' ', ' ',
   ' ', ' ', ' ', '　']

/-- Whether a character is Python whitespace. -/
def pySpace (c : Char) : Bool := pySpaceChars.contains c

/-- One pass of `re.sub(r'\s+', '_', s)`: each maximal run of whitespace
characters is replaced by a single underscore. The flag records whether
the previous character belonged to a whitespace run. -/
def collapseWsAux : Bool → List Char → List Char
  | _, [] => []
  | inRun, c :: cs =>
    if pySpace c then
      if inRun then collapseWsAux true cs else '_' :: collapseWsAux true cs
    else c :: collapseWsAux false cs

/-- `re.sub(r'\s+', '_', s)` on the character list of a string. -/
def collapseWs (l : List Char) : List Char := collapseWsAux false l

/-- `re.sub(r'[\\/:*?"<>|]', '', s)`: delete every invalid character. -/
def removeInvalid (l : List Char) : List Char :=
  l.filter (fun c => !(invalidChars.contains c))

/-- `sanitize_filename` from the procedural script: remove invalid
characters, then replace whitespace runs with underscores. -/
def sanitize_filename (filename : String) : String :=
  ⟨collapseWs (removeInvalid filename.data)⟩

/-- `FilenameSanitizer.sanitize` from the class-based version; its body is
the same two regex substitutions as `sanitize_filename`. -/
def FilenameSanitizer.sanitize (filename : String) : String :=
  ⟨collapseWs (removeInvalid filename.data)⟩

/-- Python `str.strip()`: drop leading and trailing whitespace. -/
def pyStrip (s : String) : String :=
  ⟨((s.data.dropWhile pySpace).reverse.dropWhile pySpace).reverse⟩

/-- Decimal digits of `n`, most significant first, with explicit fuel
(the fuel `n + 1` always suffices). -/
def natDigits : Nat → Nat → List Char
  | 0, _ => []
  | fuel + 1, n =>
    if n < 10 then [Nat.digitChar n]
    else natDigits fuel (n / 10) ++ [Nat.digitChar (n % 10)]

/-- The decimal rendering of a natural number, as produced by Python
string formatting of a nonnegative integer. -/
def natRepr (n : Nat) : String := ⟨natDigits (n + 1) n⟩

/-- Numeric value of a decimal digit character. -/
def digitToNat (c : Char) : Nat := c.toNat - 48

/-- Left inverse of the digit rendering: fold the digits back into a
number. -/
def digitsToNat (l : List Char) : Nat :=
  l.foldl (fun a c => 10 * a + digitToNat c) 0

/-- `os.path.splitext` restricted to plain filenames (no directory
separators): split at the last dot, unless every character before that
dot is itself a dot, in which case there is no extension. -/
def splitext (s : String) : String × String :=
  let r := s.data.reverse
  let d := r.dropWhile (fun c => c ≠ '.')
  if d = [] then (s, "")
  else if d.tail.any (fun c => c ≠ '.') then
    (⟨d.tail.reverse⟩, ⟨'.' :: (r.takeWhile (fun c => c ≠ '.')).reverse⟩)
  else (s, "")

/-- Result of opening one HTML file and looking for the first
`<h1 class="panel__title">` element with BeautifulSoup: the element was
found and its content is the single text node `txt`; or no such element
exists; or reading/parsing raised an exception with message `msg`. -/
inductive ParseOutcome where
  | found (txt : String)
  | absent
  | err (msg : String)
deriving DecidableEq

/-- `HTMLFileProcessor.extract_title`: if the element was found and its
stripped text is non-empty, return the sanitized stripped text;
otherwise (or on any exception) return `None`. -/
def extract_title : ParseOutcome → Option String
  | .found txt =>
    let t := pyStrip txt
    if t = "" then none else some (FilenameSanitizer.sanitize t)
  | .absent => none
  | .err _ => none

/-- `get_new_filename` from the procedural script: like
`extract_title` but the sanitized stripped text is suffixed with
`.html` before being returned. -/
def get_new_filename : ParseOutcome → Option String
  | .found txt =>
    let t := pyStrip txt
    if t = "" then none else some (sanitize_filename t ++ ".html")
  | .absent => none
  | .err _ => none

/-- A scanned directory entry: original filename, creation timestamp
(as reported by `os.path.getctime`), and the parse outcome obtained
when the file's content is read. -/
structure FileEntry where
  filename : String
  ctime : Nat
  parse : ParseOutcome
deriving DecidableEq

/-- Comparison used by `sorted(key=lambda x: x['ctime'])`. -/
def ctimeLE (a b : FileEntry) : Prop := a.ctime ≤ b.ctime

instance : DecidableRel ctimeLE := fun a b => Nat.decLe a.ctime b.ctime

instance : IsTotal FileEntry ctimeLE := ⟨fun a b => Nat.le_total a.ctime b.ctime⟩

instance : IsTrans FileEntry ctimeLE := ⟨fun _ _ _ => Nat.le_trans⟩

/-- `HTMLFileProcessor.sort_files_by_creation_date` (and the procedural
`html_files.sort(key=...)`): a stable sort ascending by creation time;
insertion sort is stable, like Python's `sorted`. -/
def sort_files_by_creation_date (l : List FileEntry) : List FileEntry :=
  List.insertionSort ctimeLE l

/-- The `k`-th candidate tried by the class-based collision loop:
the base name itself first, then `root_k.ext` for `k = 2, 3, …`. -/
def suffixCand (base : String) (k : Nat) : String :=
  if k ≤ 1 then base
  else (splitext base).1 ++ "_" ++ natRepr k ++ (splitext base).2

/-- The `while new_name in self.new_filenames_set or os.path.exists(...)`
loop of `FileRenamer.generate_new_filenames`, with explicit fuel. The
fuel `assigned.length + disk.length + 1` used by `resolveName` always
suffices, because the candidates are pairwise distinct. -/
def resolveLoop (assigned disk : List String) (base : String) : Nat → Nat → String
  | 0, k => suffixCand base k
  | fuel + 1, k =>
    if suffixCand base k ∈ assigned ∨ suffixCand base k ∈ disk then
      resolveLoop assigned disk base fuel (k + 1)
    else suffixCand base k

/-- Collision resolution of the class-based implementation: starting
from `base`, try `base`, then `root_2.ext`, `root_3.ext`, … until a name
is found that is neither claimed in `assigned` nor present in `disk`. -/
def resolveName (assigned disk : List String) (base : String) : String :=
  resolveLoop assigned disk base (assigned.length + disk.length + 1) 1

/-- The skip reason recorded by the class-based implementation when no
usable title is found. -/
def noTitleReason : String := "No <h1 class=\"panel__title\"> found."

/-- Loop body of `FileRenamer.generate_new_filenames`, processing the
already-sorted entries one at a time. State: remaining entries, on-disk
names, `new_filenames_set`, running index. Returns the
`(renamed_files, skipped_files)` pair in processing order. The rename
oracle returns `some msg` when `os.rename` raises with message `msg`. -/
def FileRenamer.generateAux (oracle : String → String → Option String) (add_index : Bool) :
    List FileEntry → List String → List String → Nat →
      List (String × String) × List (String × String)
  | [], _, _, _ => ([], [])
  | e :: es, disk, assigned, index =>
    match extract_title e.parse with
    | none =>
      let p := FileRenamer.generateAux oracle add_index es disk assigned index
      (p.1, (e.filename, noTitleReason) :: p.2)
    | some t =>
      if t = "" then
        let p := FileRenamer.generateAux oracle add_index es disk assigned index
        (p.1, (e.filename, noTitleReason) :: p.2)
      else
        let nm0 := resolveName assigned disk (t ++ ".html")
        let nm := if add_index then natRepr index ++ ". " ++ nm0 else nm0
        let index' := if add_index then index + 1 else index
        let assigned' := nm :: assigned
        match oracle e.filename nm with
        | none =>
          let p := FileRenamer.generateAux oracle add_index es
            (List.insert nm (disk.erase e.filename)) assigned' index'
          ((e.filename, nm) :: p.1, p.2)
        | some msg =>
          let p := FileRenamer.generateAux oracle add_index es disk assigned' index'
          (p.1, (e.filename, msg) :: p.2)

/-- `FileRenamer.generate_new_filenames`: sort the scanned entries by
creation date and process them with an initially empty
`new_filenames_set` and running index 1. -/
def FileRenamer.generate_new_filenames (entries : List FileEntry) (disk0 : List String)
    (add_index : Bool) (oracle : String → String → Option String) :
    List (String × String) × List (String × String) :=
  FileRenamer.generateAux oracle add_index (sort_files_by_creation_date entries) disk0 [] 1

/-- `FileRenamer.perform_renaming` simply runs
`generate_new_filenames` and returns `(renamed_files, skipped_files)`. -/
def FileRenamer.perform_renaming (entries : List FileEntry) (disk0 : List String)
    (add_index : Bool) (oracle : String → String → Option String) :
    List (String × String) × List (String × String) :=
  FileRenamer.generate_new_filenames entries disk0 add_index oracle

/-- Loop body of the procedural `rename_html_files`, processing the
already-sorted entries. State: remaining entries, on-disk names, the
`new_filenames` dict (an association list whose most recent binding
shadows older ones, as Python dict assignment does under lookup),
running index. Skipped entries carry `some target` when a target name
had been computed (conflict or rename error) and `none` when no title
was found, exactly like the `(original, new)` / `(original, None)`
tuples of the script. -/
def renameAux (oracle : String → String → Option String) (add_index : Bool) :
    List FileEntry → List String → List (String × Nat) → Nat →
      List (String × String) × List (String × Option String)
  | [], _, _, _ => ([], [])
  | e :: es, disk, counts, index =>
    match get_new_filename e.parse with
    | none =>
      let p := renameAux oracle add_index es disk counts index
      (p.1, (e.filename, none) :: p.2)
    | some new0 =>
      let dc := (counts.lookup new0).getD 0
      let new1 :=
        if 0 < dc then (splitext new0).1 ++ "_" ++ natRepr dc ++ (splitext new0).2
        else new0
      let counts' := (new1, dc + 1) :: counts
      let new2 := if add_index then natRepr index ++ ". " ++ new1 else new1
      let index' := if add_index then index + 1 else index
      if new2 ∈ disk then
        let p := renameAux oracle add_index es disk counts' index'
        (p.1, (e.filename, some new2) :: p.2)
      else
        match oracle e.filename new2 with
        | none =>
          let p := renameAux oracle add_index es
            (List.insert new2 (disk.erase e.filename)) counts' index'
          ((e.filename, new2) :: p.1, p.2)
        | some _ =>
          let p := renameAux oracle add_index es disk counts' index'
          (p.1, (e.filename, some new2) :: p.2)

/-- The procedural `rename_html_files`: sort the scanned entries by
creation time, then resolve and rename each one, returning the
`(renamed_files, skipped_files)` pair. -/
def rename_html_files (entries : List FileEntry) (disk0 : List String)
    (add_index : Bool) (oracle : String → String → Option String) :
    List (String × String) × List (String × Option String) :=
  renameAux oracle add_index (sort_files_by_creation_date entries) disk0 [] 1

/-- Specification-level outcome of one file: renamed to `newName`,
rename attempt on `newName` failed with `msg`, or skipped because no
title was found. -/
inductive RenameOutcome where
  | renamed (original newName : String)
  | failed (original newName msg : String)
  | untitled (original : String)
deriving DecidableEq

/-- The final name given to the `k`-th title-bearing file when its
sanitized title `t` collides with nothing: `t.html`, with the running
index prepended when indexing is on. -/
def finalName (add_index : Bool) (k : Nat) (t : String) : String :=
  (if add_index then natRepr k ++ ". " else "") ++ t ++ ".html"

/-- The outcome sequence of a collision-free run, starting at running
index `k`: title-bearing files are assigned `finalName` with
consecutive indices (failed renames still consume an index), files
without a title are skipped. -/
def expectedOutcomes (oracle : String → String → Option String) (add_index : Bool) :
    Nat → List FileEntry → List RenameOutcome
  | _, [] => []
  | k, e :: es =>
    match extract_title e.parse with
    | none => .untitled e.filename :: expectedOutcomes oracle add_index k es
    | some t =>
      match oracle e.filename (finalName add_index k t) with
      | none =>
        .renamed e.filename (finalName add_index k t) ::
          expectedOutcomes oracle add_index (k + 1) es
      | some m =>
        .failed e.filename (finalName add_index k t) m ::
          expectedOutcomes oracle add_index (k + 1) es

/-- Projection of an outcome onto the `renamed_files` entry it
produces, shared by both implementations. -/
def renProj : RenameOutcome → Option (String × String)
  | .renamed o n => some (o, n)
  | _ => none

/-- Projection onto the `skipped_files` entry recorded by the
class-based implementation. -/
def classSkipProj : RenameOutcome → Option (String × String)
  | .failed o _ m => some (o, m)
  | .untitled o => some (o, noTitleReason)
  | _ => none

/-- Projection onto the `skipped_files` entry recorded by the
procedural implementation. -/
def procSkipProj : RenameOutcome → Option (String × Option String)
  | .failed o n _ => some (o, some n)
  | .untitled o => some (o, none)
  | _ => none

/-- The names claimed by a collision-free run over the list of titles
`ts`, the first one receiving running index `k`. -/
def usedNames (add_index : Bool) : Nat → List String → List String
  | _, [] => []
  | k, t :: ts => finalName add_index k t :: usedNames add_index (k + 1) ts

/-- The extracted titles of a list of entries, in order. -/
def entryTitles (l : List FileEntry) : List String :=
  l.filterMap (fun e => extract_title e.parse)

/-- Collision-freedom of a run: the extracted titles are pairwise
distinct and non-empty, no candidate `t.html` is present in the initial
directory, and (when indexing) no index-prefixed candidate is present
either. -/
def goodT (ts : List String) (disk0 : List String) (add_index : Bool) : Prop :=
  ts.Nodup ∧ (∀ t ∈ ts, t ≠ "" ∧ (t ++ ".html") ∉ disk0) ∧
    (add_index = true →
      ∀ k ∈ List.range (ts.length + 1), ∀ t ∈ ts,
        (natRepr k ++ ". " ++ t ++ ".html") ∉ disk0)

/-- Collision-freedom stated on the run's inputs. -/
def goodRun (entries : List FileEntry) (disk0 : List String) (add_index : Bool) : Prop :=
  goodT (entryTitles (sort_files_by_creation_date entries)) disk0 add_index

instance (ts disk0 : List String) (ai : Bool) : Decidable (goodT ts disk0 ai) := by
  unfold goodT; infer_instance

instance (entries : List FileEntry) (disk0 : List String) (ai : Bool) :
    Decidable (goodRun entries disk0 ai) := by
  unfold goodRun; infer_instance

/-- Enumeration of the title-bearing files of a sorted entry list with
consecutive running indices: the numbering the spec promises when
indexing is on and every rename succeeds. -/
def enumTitled : Nat → List FileEntry → List (String × String)
  | _, [] => []
  | k, e :: es =>
    match extract_title e.parse with
    | none => enumTitled k es
    | some t => (e.filename, natRepr k ++ ". " ++ t ++ ".html") :: enumTitled (k + 1) es

/-- The renamed files of an indexed run under an arbitrary rename
oracle: the `k`-th title-bearing file is attempted under index `k`
whether or not earlier renames succeeded, and appears in the output
only when its own rename succeeds. -/
def okFiltered (oracle : String → String → Option String) :
    Nat → List FileEntry → List (String × String)
  | _, [] => []
  | k, e :: es =>
    match extract_title e.parse with
    | none => okFiltered oracle k es
    | some t =>
      match oracle e.filename (finalName true k t) with
      | none => (e.filename, finalName true k t) :: okFiltered oracle (k + 1) es
      | some _ => okFiltered oracle (k + 1) es

theorem splitext_example : splitext "Hello.html" = ("Hello", ".html") := by decide

theorem splitext_example2 : splitext ".html" = (".html", "") := by decide

theorem natRepr_example : natRepr 12 = "12" := by decide

theorem digitToNat_digitChar {d : Nat} (h : d < 10) :
    digitToNat (Nat.digitChar d) = d := by
  interval_cases d <;> rfl

theorem digitChar_isDigit {d : Nat} (h : d < 10) : (Nat.digitChar d).isDigit = true := by
  interval_cases d <;> rfl

theorem digitsToNat_append (l : List Char) (c : Char) :
    digitsToNat (l ++ [c]) = 10 * digitsToNat l + digitToNat c := by
  unfold digitsToNat
  rw [List.foldl_append]
  rfl

theorem digitsToNat_natDigits :
    ∀ (fuel n : Nat), n ≤ fuel → digitsToNat (natDigits fuel n) = n := by
  intro fuel
  induction fuel with
  | zero =>
    intro n hn
    interval_cases n
    rfl
  | succ f ih =>
    intro n hn
    by_cases h10 : n < 10
    · simp only [natDigits, if_pos h10]
      show digitsToNat ([] ++ [Nat.digitChar n]) = n
      rw [digitsToNat_append]
      show 10 * 0 + digitToNat (Nat.digitChar n) = n
      rw [digitToNat_digitChar h10]
      omega
    · simp only [natDigits, if_neg h10]
      rw [digitsToNat_append, ih (n / 10) (by omega)]
      have hmod := digitToNat_digitChar (show n % 10 < 10 by omega)
      omega

theorem natRepr_inj {a b : Nat} (h : natRepr a = natRepr b) : a = b := by
  have hd : natDigits (a + 1) a = natDigits (b + 1) b := congrArg String.data h
  calc a = digitsToNat (natDigits (a + 1) a) := (digitsToNat_natDigits _ _ (by omega)).symm
    _ = digitsToNat (natDigits (b + 1) b) := by rw [hd]
    _ = b := digitsToNat_natDigits _ _ (by omega)

theorem natDigits_ne_nil (fuel n : Nat) (h : 0 < fuel) : natDigits fuel n ≠ [] := by
  match fuel, h with
  | f + 1, _ =>
    simp only [natDigits]
    split <;> simp

theorem natRepr_length_pos (n : Nat) : 0 < (natRepr n).length :=
  List.length_pos.mpr (natDigits_ne_nil (n + 1) n (by omega))

theorem natDigits_isDigit :
    ∀ (fuel n : Nat), ∀ c ∈ natDigits fuel n, c.isDigit = true := by
  intro fuel
  induction fuel with
  | zero => intro n c h; simp [natDigits] at h
  | succ f ih =>
    intro n c h
    simp only [natDigits] at h
    split at h
    · next h10 =>
      rw [List.mem_singleton] at h
      subst h
      exact digitChar_isDigit h10
    · next h10 =>
      rcases List.mem_append.mp h with h' | h'
      · exact ih _ c h'
      · rw [List.mem_singleton] at h'
        subst h'
        exact digitChar_isDigit (by omega)

theorem natRepr_isDigit {n : Nat} {c : Char} (h : c ∈ (natRepr n).data) :
    c.isDigit = true := natDigits_isDigit (n + 1) n c h

theorem isDigit_not_space {c : Char} (h : c.isDigit = true) : c ≠ ' ' := by
  rintro rfl
  exact absurd h (by decide)

theorem isDigit_not_dot {c : Char} (h : c.isDigit = true) : c ≠ '.' := by
  rintro rfl
  exact absurd h (by decide)

theorem string_append_right_cancel {a b c : String} (h : a ++ c = b ++ c) : a = b := by
  have hd : a.data ++ c.data = b.data ++ c.data := by
    rw [← String.data_append, ← String.data_append, h]
  exact String.ext (List.append_cancel_right hd)

theorem eq_of_append_space :
    ∀ (a : List Char) {b u v : List Char}, (∀ c ∈ a, c ≠ ' ') → (∀ c ∈ b, c ≠ ' ') →
      a ++ ' ' :: u = b ++ ' ' :: v → a = b ∧ u = v := by
  intro a
  induction a with
  | nil =>
    intro b u v _ hb h
    cases b with
    | nil => simpa using h
    | cons d bs =>
      simp only [List.nil_append, List.cons_append, List.cons.injEq] at h
      exact absurd h.1.symm (hb d (List.mem_cons_self _ _))
  | cons x as ih =>
    intro b u v ha hb h
    cases b with
    | nil =>
      simp only [List.cons_append, List.nil_append, List.cons.injEq] at h
      exact absurd h.1 (ha x (List.mem_cons_self _ _))
    | cons d bs =>
      simp only [List.cons_append, List.cons.injEq] at h
      obtain ⟨rfl, h2⟩ := h
      obtain ⟨h3, h4⟩ := ih (fun c hc => ha c (List.mem_cons_of_mem _ hc))
        (fun c hc => hb c (List.mem_cons_of_mem _ hc)) h2
      exact ⟨by rw [h3], h4⟩

theorem dropWhile_head_false {p : Char → Bool} :
    ∀ (l : List Char) {x : Char} {rest : List Char},
      l.dropWhile p = x :: rest → p x = false := by
  intro l
  induction l with
  | nil => intro x rest h; simp [List.dropWhile] at h
  | cons a as ih =>
    intro x rest h
    rw [List.dropWhile_cons] at h
    split at h
    · exact ih h
    · next hpa =>
      injection h with h1 _
      subst h1
      simpa using hpa

theorem splitext_append (s : String) : (splitext s).1 ++ (splitext s).2 = s := by
  unfold splitext
  cases hd : s.data.reverse.dropWhile (fun c => decide (c ≠ '.')) with
  | nil =>
    simp only [hd]
    apply String.ext
    rw [String.data_append]
    simp
  | cons x rest =>
    have hx : x = '.' := by
      have := dropWhile_head_false _ hd
      simpa using this
    subst hx
    simp only [hd, List.tail_cons, reduceCtorEq, if_false]
    by_cases hany : rest.any (fun c => decide (c ≠ '.')) = true
    · rw [if_pos hany]
      apply String.ext
      rw [String.data_append]
      show rest.reverse ++ '.' :: (s.data.reverse.takeWhile (fun c => decide (c ≠ '.'))).reverse
        = s.data
      have hsplit : s.data.reverse.takeWhile (fun c => decide (c ≠ '.')) ++
          '.' :: rest = s.data.reverse := by
        rw [← hd]
        exact List.takeWhile_append_dropWhile ..
      calc rest.reverse ++ '.' :: (s.data.reverse.takeWhile (fun c => decide (c ≠ '.'))).reverse
          = (s.data.reverse.takeWhile (fun c => decide (c ≠ '.')) ++ '.' :: rest).reverse := by
            simp [List.reverse_append]
        _ = s.data.reverse.reverse := by rw [hsplit]
        _ = s.data := List.reverse_reverse _
    · rw [if_neg hany]
      apply String.ext
      rw [String.data_append]
      simp

theorem suffixCand_one (base : String) : suffixCand base 1 = base := by
  simp [suffixCand]

theorem suffixCand_length {base : String} {k : Nat} (hk : 2 ≤ k) :
    (suffixCand base k).length = base.length + 1 + (natRepr k).length := by
  simp only [suffixCand, if_neg (by omega : ¬ k ≤ 1)]
  have hsum : (splitext base).1.length + (splitext base).2.length = base.length := by
    rw [← String.length_append, splitext_append]
  rw [String.length_append, String.length_append, String.length_append]
  have h1 : ("_" : String).length = 1 := rfl
  omega

theorem suffixCand_inj {base : String} {i j : Nat} (hi : 1 ≤ i) (hj : 1 ≤ j)
    (h : suffixCand base i = suffixCand base j) : i = j := by
  rcases Nat.lt_or_ge i 2 with hi2 | hi2 <;> rcases Nat.lt_or_ge j 2 with hj2 | hj2
  · omega
  · exfalso
    have hl := congrArg String.length h
    have : i = 1 := by omega
    subst this
    rw [suffixCand_one, suffixCand_length hj2] at hl
    have := natRepr_length_pos j
    omega
  · exfalso
    have hl := congrArg String.length h
    have : j = 1 := by omega
    subst this
    rw [suffixCand_one, suffixCand_length hi2] at hl
    have := natRepr_length_pos i
    omega
  · have hd := congrArg String.data h
    simp only [suffixCand, if_neg (by omega : ¬ i ≤ 1), if_neg (by omega : ¬ j ≤ 1)] at hd
    rw [String.data_append, String.data_append, String.data_append,
      String.data_append, String.data_append, String.data_append] at hd
    rw [List.append_assoc, List.append_assoc, List.append_assoc, List.append_assoc] at hd
    have h1 := List.append_cancel_left hd
    have h2 := List.append_cancel_left h1
    have h3 := List.append_cancel_right h2
    exact natRepr_inj (String.ext h3)

theorem resolveLoop_min {assigned disk : List String} {base : String} {k : Nat}
    (hfree : ¬(suffixCand base k ∈ assigned ∨ suffixCand base k ∈ disk))
    (hmin : ∀ j, 1 ≤ j → j < k → suffixCand base j ∈ assigned ∨ suffixCand base j ∈ disk) :
    ∀ (fuel s : Nat), 1 ≤ s → s ≤ k → k ≤ s + fuel →
      resolveLoop assigned disk base fuel s = suffixCand base k := by
  intro fuel
  induction fuel with
  | zero =>
    intro s _ h2 h3
    have : s = k := by omega
    subst this
    rfl
  | succ f ih =>
    intro s h1 h2 h3
    by_cases hsk : s = k
    · subst hsk
      simp only [resolveLoop, if_neg hfree]
    · have hs : s < k := by omega
      have htaken := hmin s h1 hs
      simp only [resolveLoop, if_pos htaken]
      exact ih (s + 1) (by omega) (by omega) (by omega)

theorem resolveName_min (assigned disk : List String) (base : String) (k : Nat)
    (hk1 : 1 ≤ k)
    (hfree : suffixCand base k ∉ assigned ∧ suffixCand base k ∉ disk)
    (hmin : ∀ j, 1 ≤ j → j < k → suffixCand base j ∈ assigned ∨ suffixCand base j ∈ disk) :
    resolveName assigned disk base = suffixCand base k := by
  have hkb : k ≤ assigned.length + disk.length + 1 := by
    by_contra hgt
    push_neg at hgt
    have hmaps : ∀ j ∈ Finset.range (k - 1),
        suffixCand base (j + 1) ∈ (assigned ++ disk).toFinset := by
      intro j hj
      have hj' : j < k - 1 := Finset.mem_range.mp hj
      rcases hmin (j + 1) (by omega) (by omega) with h | h
      · exact List.mem_toFinset.mpr (List.mem_append.mpr (Or.inl h))
      · exact List.mem_toFinset.mpr (List.mem_append.mpr (Or.inr h))
    have hinj : Set.InjOn (fun j => suffixCand base (j + 1)) (Finset.range (k - 1)) := by
      intro i _ j _ hij
      have := suffixCand_inj (by omega) (by omega) hij
      omega
    have hcard := Finset.card_le_card_of_injOn _ hmaps hinj
    rw [Finset.card_range] at hcard
    have hlen := List.toFinset_card_le (assigned ++ disk)
    rw [List.length_append] at hlen
    omega
  exact resolveLoop_min (by tauto) hmin (assigned.length + disk.length + 1) 1 le_rfl hk1
    (by omega)

/-- Claim C2 (amended, scoped to the class-based implementation whose
loop the claim describes): the resolver returns the first candidate of
the sequence `base`, `root_2.ext`, `root_3.ext`, … (numeric suffix
starting at 2, incrementing by 1) that is free in both the
assigned-name set and the on-disk listing; in particular with nothing
claimed `Hello` yields `Hello.html`, with `Hello.html` claimed it
yields `Hello_2.html`, and with both claimed, `Hello_3.html`. The
procedural implementation does not follow this scheme (see the
counterexample). -/
theorem c2_resolver (assigned disk : List String) (base : String) (k : Nat)
    (hk1 : 1 ≤ k)
    (hfree : suffixCand base k ∉ assigned ∧ suffixCand base k ∉ disk)
    (hmin : ∀ j, 1 ≤ j → j < k → suffixCand base j ∈ assigned ∨ suffixCand base j ∈ disk) :
    resolveName assigned disk base = suffixCand base k :=
  resolveName_min assigned disk base k hk1 hfree hmin

theorem c2_resolver_witness :
    resolveName ["Hello.html", "Hello_2.html"] [] "Hello.html" = "Hello_3.html" := by
  have h := c2_resolver ["Hello.html", "Hello_2.html"] [] "Hello.html" 3 (by omega)
    (by decide) (by intro j h1 h2; interval_cases j <;> decide)
  rw [h]
  decide

/-- Claim C2 counterexample: in the procedural implementation, the
second file with title `Hello` is renamed to `Hello_1.html` — the
numeric suffix starts at 1, not 2 as the claim states for both
implementations. -/
theorem c2_counterexample :
    (rename_html_files [⟨"a.html", 1, .found "Hello"⟩, ⟨"b.html", 2, .found "Hello"⟩]
        ["a.html", "b.html"] false (fun _ _ => none)).1 =
      [("a.html", "Hello.html"), ("b.html", "Hello_1.html")] ∧
      ("Hello_1.html" : String) ≠ "Hello_2.html" := by
  refine ⟨by decide, by decide⟩

theorem mem_collapseWsAux {c : Char} :
    ∀ (l : List Char) (b : Bool), c ∈ collapseWsAux b l →
      c = '_' ∨ (c ∈ l ∧ pySpace c = false) := by
  intro l
  induction l with
  | nil => intro b h; simp [collapseWsAux] at h
  | cons a as ih =>
    intro b h
    simp only [collapseWsAux] at h
    by_cases ha : pySpace a
    · rw [if_pos ha] at h
      cases b with
      | true =>
        rcases ih true h with h' | ⟨hm, hs⟩
        · exact Or.inl h'
        · exact Or.inr ⟨List.mem_cons_of_mem _ hm, hs⟩
      | false =>
        rcases List.mem_cons.mp h with rfl | h'
        · exact Or.inl rfl
        · rcases ih true h' with h'' | ⟨hm, hs⟩
          · exact Or.inl h''
          · exact Or.inr ⟨List.mem_cons_of_mem _ hm, hs⟩
    · rw [if_neg ha] at h
      rcases List.mem_cons.mp h with rfl | h'
      · exact Or.inr ⟨List.mem_cons_self _ _, by simpa using ha⟩
      · rcases ih false h' with h'' | ⟨hm, hs⟩
        · exact Or.inl h''
        · exact Or.inr ⟨List.mem_cons_of_mem _ hm, hs⟩

theorem sanitize_mem {s : String} {c : Char} (h : c ∈ (sanitize_filename s).data) :
    invalidChars.contains c = false ∧ pySpace c = false := by
  have h' := mem_collapseWsAux (removeInvalid s.data) false h
  rcases h' with rfl | ⟨hm, hs⟩
  · exact ⟨by decide, by decide⟩
  · refine ⟨?_, hs⟩
    have := List.mem_filter.mp hm
    simpa using this.2

theorem sanitize_no_space {s : String} {c : Char} (h : c ∈ (sanitize_filename s).data) :
    pySpace c = false := (sanitize_mem h).2

theorem collapseWsAux_of_no_space :
    ∀ (l : List Char), (∀ c ∈ l, pySpace c = false) → ∀ b, collapseWsAux b l = l := by
  intro l
  induction l with
  | nil => intro _ b; rfl
  | cons a as ih =>
    intro h b
    have ha : pySpace a = false := h a (List.mem_cons_self _ _)
    simp only [collapseWsAux, ha]
    rw [ih (fun c hc => h c (List.mem_cons_of_mem _ hc)) false]
    simp

theorem removeInvalid_of_no_invalid {l : List Char}
    (h : ∀ c ∈ l, invalidChars.contains c = false) : removeInvalid l = l := by
  unfold removeInvalid
  rw [List.filter_eq_self]
  intro c hc
  simpa using h c hc

theorem sanitize_idem (x : String) :
    sanitize_filename (sanitize_filename x) = sanitize_filename x := by
  show (⟨collapseWs (removeInvalid (sanitize_filename x).data)⟩ : String) = _
  rw [removeInvalid_of_no_invalid (fun c hc => (sanitize_mem hc).1)]
  unfold collapseWs
  rw [collapseWsAux_of_no_space _ (fun c hc => (sanitize_mem hc).2) false]

/-- Claim C6 counterexample: the claim's concrete example
`sanitize('A:B  C?') = 'A_B_C'` is false on the code: the colon is
deleted, not replaced, so the result is `AB_C`. -/
theorem c6_counterexample :
    sanitize_filename "A:B  C?" = "AB_C" ∧
      FilenameSanitizer.sanitize "A:B  C?" = "AB_C" ∧
      ("AB_C" : String) ≠ "A_B_C" := by
  refine ⟨by decide, by decide, by decide⟩

/-- Claim C6 (amended): for every input string the sanitizer's output
contains none of the characters `\/:*?"<>|` and no whitespace character
(each maximal whitespace run having been collapsed to one underscore);
it is total, mapping an input of only invalid characters to the empty
string; and `sanitize('A:B  C?') = 'AB_C'`. -/
theorem c6_sanitizer_safe :
    (∀ (s : String), ∀ c ∈ (sanitize_filename s).data,
        invalidChars.contains c = false ∧ pySpace c = false) ∧
      sanitize_filename "A:B  C?" = "AB_C" ∧
      FilenameSanitizer.sanitize "A:B  C?" = "AB_C" ∧
      sanitize_filename "*?/" = "" := by
  refine ⟨fun s c hc => sanitize_mem hc, by decide, by decide, by decide⟩

theorem c6_sanitizer_safe_witness :
    '_' ∈ (sanitize_filename "a b").data ∧
      invalidChars.contains '_' = false ∧ pySpace '_' = false :=
  ⟨by decide, c6_sanitizer_safe.1 "a b" '_' (by decide)⟩

/-- Claim C7: both sanitizers are idempotent. -/
theorem c7_sanitize_idempotent (x : String) :
    sanitize_filename (sanitize_filename x) = sanitize_filename x ∧
      FilenameSanitizer.sanitize (FilenameSanitizer.sanitize x) =
        FilenameSanitizer.sanitize x :=
  ⟨sanitize_idem x, sanitize_idem x⟩

/-- Claim C3 counterexample: for markup whose `h1.panel__title` element
holds the text `  My Title `, extraction returns the sanitized string
`My_Title`, not the merely stripped text `My Title` the claim states. -/
theorem c3_counterexample :
    extract_title (.found "  My Title ") = some "My_Title" ∧
      get_new_filename (.found "  My Title ") = some "My_Title.html" ∧
      ("My_Title" : String) ≠ "My Title" := by
  refine ⟨by decide, by decide, by decide⟩

/-- Claim C3 (amended): when the element's text is non-empty after
stripping, extraction returns the stripped text passed through the
sanitizer (`My_Title` for the example); when no element is found, when
its stripped text is empty, or when parsing fails, both implementations
return the distinguished absence value. -/
theorem c3_extraction (txt m : String) :
    (pyStrip txt ≠ "" →
        extract_title (.found txt) = some (FilenameSanitizer.sanitize (pyStrip txt)) ∧
          get_new_filename (.found txt) = some (sanitize_filename (pyStrip txt) ++ ".html")) ∧
      (pyStrip txt = "" →
        extract_title (.found txt) = none ∧ get_new_filename (.found txt) = none) ∧
      extract_title .absent = none ∧ get_new_filename .absent = none ∧
      extract_title (.err m) = none ∧ get_new_filename (.err m) = none := by
  refine ⟨fun h => ?_, fun h => ?_, rfl, rfl, rfl, rfl⟩ <;>
    simp [extract_title, get_new_filename, h]

theorem c3_extraction_witness :
    pyStrip "  My Title " ≠ "" ∧
      extract_title (.found "  My Title ") =
        some (FilenameSanitizer.sanitize (pyStrip "  My Title ")) :=
  ⟨by decide, ((c3_extraction "  My Title " "x").1 (by decide)).1⟩

theorem sanitizer_eq : FilenameSanitizer.sanitize = sanitize_filename := rfl

theorem finalName_false (k : Nat) (t : String) : finalName false k t = t ++ ".html" := rfl

theorem finalName_true_eq (k : Nat) (t : String) :
    finalName true k t = natRepr k ++ ". " ++ (t ++ ".html") := by
  show ((natRepr k ++ ". ") ++ t) ++ ".html" = (natRepr k ++ ". ") ++ (t ++ ".html")
  rw [String.append_assoc]

theorem finalName_true_data (k : Nat) (t : String) :
    (finalName true k t).data =
      ((natRepr k).data ++ ['.']) ++ ' ' :: (t.data ++ ".html".data) := by
  show (((natRepr k ++ ". ") ++ t) ++ (".html" : String)).data = _
  rw [String.data_append, String.data_append, String.data_append]
  have h1 : (". " : String).data = ['.', ' '] := rfl
  rw [h1]
  simp [List.append_assoc]

theorem space_mem_finalName_true (k : Nat) (t : String) :
    ' ' ∈ (finalName true k t).data := by
  rw [finalName_true_data]
  simp

theorem no_space_html : ∀ c ∈ (".html" : String).data, c ≠ ' ' := by decide

theorem extract_title_no_space {p : ParseOutcome} {t : String}
    (h : extract_title p = some t) : ∀ c ∈ t.data, c ≠ ' ' := by
  cases p with
  | found txt =>
    simp only [extract_title] at h
    split at h
    · exact absurd h (by simp)
    · obtain rfl := Option.some.inj h
      intro c hc hsp
      subst hsp
      rw [sanitizer_eq] at hc
      have := sanitize_no_space hc
      exact absurd this (by decide)
  | absent => exact absurd h (by simp [extract_title])
  | err m => exact absurd h (by simp [extract_title])

theorem reprDot_no_space (k : Nat) : ∀ c ∈ (natRepr k).data ++ ['.'], c ≠ ' ' := by
  intro c hc
  rcases List.mem_append.mp hc with h' | h'
  · exact isDigit_not_space (natRepr_isDigit h')
  · rw [List.mem_singleton] at h'
    subst h'
    decide

theorem finalName_true_ne_of_ne {j k : Nat} {s t : String} (hjk : j ≠ k) :
    finalName true j s ≠ finalName true k t := by
  intro h
  have hd := congrArg String.data h
  rw [finalName_true_data, finalName_true_data] at hd
  obtain ⟨h1, -⟩ := eq_of_append_space _ (reprDot_no_space j) (reprDot_no_space k) hd
  have h2 := List.append_cancel_right h1
  exact hjk (natRepr_inj (String.ext h2))

theorem finalName_true_ne_plain {j : Nat} {s t : String}
    (ht : ∀ c ∈ t.data, c ≠ ' ') : finalName true j s ≠ t ++ ".html" := by
  intro h
  have hsp := space_mem_finalName_true j s
  rw [h, String.data_append] at hsp
  rcases List.mem_append.mp hsp with h' | h'
  · exact ht ' ' h' rfl
  · exact no_space_html ' ' h' rfl

theorem html_append_inj {s t : String} (h : s ++ ".html" = t ++ ".html") : s = t :=
  string_append_right_cancel h

theorem mem_usedNames {ai : Bool} {n : String} :
    ∀ (S : List String) (k : Nat), n ∈ usedNames ai k S →
      ∃ j t, t ∈ S ∧ k ≤ j ∧ j < k + S.length ∧ n = finalName ai j t := by
  intro S
  induction S with
  | nil => intro k h; simp [usedNames] at h
  | cons s ss ih =>
    intro k h
    rw [usedNames] at h
    rcases List.mem_cons.mp h with rfl | h'
    · exact ⟨k, s, List.mem_cons_self _ _, le_rfl, by simp, rfl⟩
    · obtain ⟨j, t, ht, hk, hj, rfl⟩ := ih (k + 1) h'
      refine ⟨j, t, List.mem_cons_of_mem _ ht, by omega, ?_, rfl⟩
      simp only [List.length_cons]
      omega

theorem usedNames_append (ai : Bool) :
    ∀ (S : List String) (k : Nat) (t : String),
      usedNames ai k (S ++ [t]) = usedNames ai k S ++ [finalName ai (k + S.length) t] := by
  intro S
  induction S with
  | nil => intro k t; simp [usedNames]
  | cons s ss ih =>
    intro k t
    show usedNames ai k (s :: (ss ++ [t])) = _
    rw [usedNames, ih (k + 1) t, usedNames]
    simp only [List.length_cons, List.cons_append]
    have harith : k + 1 + ss.length = k + (ss.length + 1) := by omega
    rw [harith]

theorem usedNames_not_mem_plain {ai : Bool} {S : List String} {t : String}
    (hsp : ∀ c ∈ t.data, c ≠ ' ') (htS : t ∉ S) :
    (t ++ ".html") ∉ usedNames ai 1 S := by
  intro hmem
  obtain ⟨j, s, hsS, -, -, heq⟩ := mem_usedNames S 1 hmem
  cases ai with
  | true => exact finalName_true_ne_plain hsp heq.symm
  | false =>
    rw [finalName_false] at heq
    have : t = s := html_append_inj heq
    subst this
    exact htS hsS

theorem resolveName_of_free {assigned disk : List String} {base : String}
    (h1 : base ∉ assigned) (h2 : base ∉ disk) :
    resolveName assigned disk base = base := by
  have hfree : ¬(suffixCand base 1 ∈ assigned ∨ suffixCand base 1 ∈ disk) := by
    rw [suffixCand_one]
    tauto
  have := resolveLoop_min hfree (fun j hj1 hj2 => by omega)
    (assigned.length + disk.length + 1) 1 le_rfl le_rfl (by omega)
  rw [resolveName, this, suffixCand_one]

theorem entryTitles_cons_some {e : FileEntry} {es : List FileEntry} {t : String}
    (h : extract_title e.parse = some t) :
    entryTitles (e :: es) = t :: entryTitles es := by
  simp [entryTitles, h]

theorem entryTitles_cons_none {e : FileEntry} {es : List FileEntry}
    (h : extract_title e.parse = none) :
    entryTitles (e :: es) = entryTitles es := by
  simp [entryTitles, h]

theorem plain_fresh {ai : Bool} {disk0 allT S ts : List String} {t : String}
    (hgood : goodT allT disk0 ai) (hT : allT = S ++ t :: ts)
    (hsp : ∀ c ∈ t.data, c ≠ ' ')
    {X : List String} (hX : ∀ n ∈ X, n ∈ disk0 ∨ n ∈ usedNames ai 1 S) :
    (t ++ ".html") ∉ X := by
  intro hmem
  have htmem : t ∈ allT := by
    rw [hT]
    exact List.mem_append_right _ (List.mem_cons_self _ _)
  have htS : t ∉ S := by
    have hnd := hgood.1
    rw [hT, List.nodup_append] at hnd
    exact fun hts => hnd.2.2 hts (List.mem_cons_self _ _)
  rcases hX _ hmem with h0 | hu
  · exact (hgood.2.1 t htmem).2 h0
  · exact usedNames_not_mem_plain hsp htS hu

theorem prefixed_fresh {disk0 allT S ts : List String} {t : String}
    (hgood : goodT allT disk0 true) (hT : allT = S ++ t :: ts)
    {X : List String} (hX : ∀ n ∈ X, n ∈ disk0 ∨ n ∈ usedNames true 1 S) :
    finalName true (S.length + 1) t ∉ X := by
  intro hmem
  have htmem : t ∈ allT := by
    rw [hT]
    exact List.mem_append_right _ (List.mem_cons_self _ _)
  rcases hX _ hmem with h0 | hu
  · have hk : S.length + 1 ∈ List.range (allT.length + 1) := by
      rw [List.mem_range, hT, List.length_append, List.length_cons]
      omega
    exact hgood.2.2 rfl (S.length + 1) hk t htmem h0
  · obtain ⟨j, s, hsS, hj1, hj2, heq⟩ := mem_usedNames S 1 hu
    exact absurd heq (finalName_true_ne_of_ne (by omega))

theorem generateAux_clean (oracle : String → String → Option String) (ai : Bool)
    (disk0 allT : List String) (hgood : goodT allT disk0 ai) :
    ∀ (rest : List FileEntry) (S disk assigned : List String) (idx : Nat),
      allT = S ++ entryTitles rest →
      (ai = true → idx = S.length + 1) →
      (∀ n ∈ disk, n ∈ disk0 ∨ n ∈ usedNames ai 1 S) →
      (∀ n ∈ assigned, n ∈ usedNames ai 1 S) →
      FileRenamer.generateAux oracle ai rest disk assigned idx =
        ((expectedOutcomes oracle ai (S.length + 1) rest).filterMap renProj,
         (expectedOutcomes oracle ai (S.length + 1) rest).filterMap classSkipProj) := by
  intro rest
  induction rest with
  | nil =>
    intro S disk assigned idx _ _ _ _
    simp [FileRenamer.generateAux, expectedOutcomes]
  | cons e es ih =>
    intro S disk assigned idx hT hidx hdisk hassigned
    cases hE : extract_title e.parse with
    | none =>
      rw [entryTitles_cons_none hE] at hT
      have hrec := ih S disk assigned idx hT hidx hdisk hassigned
      simp only [FileRenamer.generateAux, hE, hrec, expectedOutcomes,
        List.filterMap_cons, renProj, classSkipProj]
    | some t =>
      rw [entryTitles_cons_some hE] at hT
      have hsp := extract_title_no_space hE
      have htmem : t ∈ allT := by
        rw [hT]
        exact List.mem_append_right _ (List.mem_cons_self _ _)
      have hne : ¬(t = "") := (hgood.2.1 t htmem).1
      have hfreeA : (t ++ ".html") ∉ assigned :=
        plain_fresh hgood hT hsp (fun n hn => Or.inr (hassigned n hn))
      have hfreeD : (t ++ ".html") ∉ disk := plain_fresh hgood hT hsp hdisk
      have hres : resolveName assigned disk (t ++ ".html") = t ++ ".html" :=
        resolveName_of_free hfreeA hfreeD
      have hnm : (if ai then natRepr idx ++ ". " ++ (t ++ ".html") else t ++ ".html") =
          finalName ai (S.length + 1) t := by
        cases ai with
        | true => rw [if_pos rfl, hidx rfl, finalName_true_eq]
        | false => rw [if_neg (by simp), finalName_false]
      have hT' : allT = (S ++ [t]) ++ entryTitles es := by
        rw [hT, List.append_assoc]
        rfl
      have hidx' : ai = true → (if ai then idx + 1 else idx) = (S ++ [t]).length + 1 := by
        intro hai
        subst hai
        rw [if_pos rfl, hidx rfl, List.length_append]
        simp
      have husedsub : ∀ n ∈ usedNames ai 1 S, n ∈ usedNames ai 1 (S ++ [t]) := by
        intro n hn
        rw [usedNames_append]
        exact List.mem_append_left _ hn
      have hnm_mem : finalName ai (S.length + 1) t ∈ usedNames ai 1 (S ++ [t]) := by
        rw [usedNames_append]
        apply List.mem_append_right
        have harith : 1 + S.length = S.length + 1 := by omega
        rw [harith]
        exact List.mem_singleton.mpr rfl
      have hassigned' : ∀ n ∈ (finalName ai (S.length + 1) t) :: assigned,
          n ∈ usedNames ai 1 (S ++ [t]) := by
        intro n hn
        rcases List.mem_cons.mp hn with rfl | hn'
        · exact hnm_mem
        · exact husedsub _ (hassigned _ hn')
      have hlen : (S ++ [t]).length = S.length + 1 := by simp
      simp only [FileRenamer.generateAux, hE, if_neg hne, hres, hnm]
      cases horacle : oracle e.filename (finalName ai (S.length + 1) t) with
      | none =>
        have hdisk' : ∀ n ∈ List.insert (finalName ai (S.length + 1) t)
            (disk.erase e.filename), n ∈ disk0 ∨ n ∈ usedNames ai 1 (S ++ [t]) := by
          intro n hn
          rcases List.mem_insert_iff.mp hn with rfl | hn'
          · exact Or.inr hnm_mem
          · rcases hdisk n (List.mem_of_mem_erase hn') with h0 | hu
            · exact Or.inl h0
            · exact Or.inr (husedsub _ hu)
        have hrec := ih (S ++ [t]) _ _ _ hT' hidx' hdisk' hassigned'
        rw [hlen] at hrec
        simp only [horacle, hE, hrec, expectedOutcomes, List.filterMap_cons, renProj,
          classSkipProj]
      | some msg =>
        have hdisk' : ∀ n ∈ disk, n ∈ disk0 ∨ n ∈ usedNames ai 1 (S ++ [t]) :=
          fun n hn => (hdisk n hn).imp id (husedsub n)
        have hrec := ih (S ++ [t]) _ _ _ hT' hidx' hdisk' hassigned'
        rw [hlen] at hrec
        simp only [horacle, hE, hrec, expectedOutcomes, List.filterMap_cons, renProj,
          classSkipProj]

theorem final_fresh {ai : Bool} {disk0 allT S ts : List String} {t : String}
    (hgood : goodT allT disk0 ai) (hT : allT = S ++ t :: ts)
    (hsp : ∀ c ∈ t.data, c ≠ ' ')
    {X : List String} (hX : ∀ n ∈ X, n ∈ disk0 ∨ n ∈ usedNames ai 1 S) :
    finalName ai (S.length + 1) t ∉ X := by
  cases ai with
  | true => exact prefixed_fresh hgood hT hX
  | false =>
    rw [finalName_false]
    exact plain_fresh hgood hT hsp hX

theorem get_new_eq (p : ParseOutcome) :
    get_new_filename p = (extract_title p).map (fun t => t ++ ".html") := by
  cases p with
  | found txt =>
    simp only [get_new_filename, extract_title, sanitizer_eq]
    split <;> simp
  | absent => rfl
  | err m => rfl

theorem lookup_none_of_ne {k : String} :
    ∀ (counts : List (String × Nat)), (∀ p ∈ counts, p.1 ≠ k) →
      counts.lookup k = none := by
  intro counts
  induction counts with
  | nil => intro _; rfl
  | cons p ps ih =>
    obtain ⟨a, b⟩ := p
    intro h
    have ha : a ≠ k := h (a, b) (List.mem_cons_self _ _)
    have htail := ih (fun q hq => h q (List.mem_cons_of_mem _ hq))
    have hbeq : (k == a) = false := beq_eq_false_iff_ne.mpr (fun hc => ha hc.symm)
    show List.lookup k ((a, b) :: ps) = none
    simp only [List.lookup, hbeq]
    exact htail

theorem renameAux_clean (oracle : String → String → Option String) (ai : Bool)
    (disk0 allT : List String) (hgood : goodT allT disk0 ai) :
    ∀ (rest : List FileEntry) (S disk : List String) (counts : List (String × Nat))
      (idx : Nat),
      allT = S ++ entryTitles rest →
      (ai = true → idx = S.length + 1) →
      (∀ n ∈ disk, n ∈ disk0 ∨ n ∈ usedNames ai 1 S) →
      (∀ p ∈ counts, ∃ s ∈ S, p.1 = s ++ ".html") →
      renameAux oracle ai rest disk counts idx =
        ((expectedOutcomes oracle ai (S.length + 1) rest).filterMap renProj,
         (expectedOutcomes oracle ai (S.length + 1) rest).filterMap procSkipProj) := by
  intro rest
  induction rest with
  | nil =>
    intro S disk counts idx _ _ _ _
    simp [renameAux, expectedOutcomes]
  | cons e es ih =>
    intro S disk counts idx hT hidx hdisk hcounts
    cases hE : extract_title e.parse with
    | none =>
      have hG : get_new_filename e.parse = none := by
        rw [get_new_eq, hE]
        rfl
      rw [entryTitles_cons_none hE] at hT
      have hrec := ih S disk counts idx hT hidx hdisk hcounts
      simp only [renameAux, hG, hrec, expectedOutcomes, hE, List.filterMap_cons,
        renProj, procSkipProj]
    | some t =>
      have hG : get_new_filename e.parse = some (t ++ ".html") := by
        rw [get_new_eq, hE]
        rfl
      rw [entryTitles_cons_some hE] at hT
      have hsp := extract_title_no_space hE
      have htS : t ∉ S := by
        have hnd := hgood.1
        rw [hT, List.nodup_append] at hnd
        exact fun hts => hnd.2.2 hts (List.mem_cons_self _ _)
      have hlook : counts.lookup (t ++ ".html") = none := by
        apply lookup_none_of_ne
        intro p hp
        obtain ⟨s, hsS, hps⟩ := hcounts p hp
        rw [hps]
        intro hc
        exact htS (html_append_inj hc ▸ hsS)
      have hnm : (if ai then natRepr idx ++ ". " ++ (t ++ ".html") else t ++ ".html") =
          finalName ai (S.length + 1) t := by
        cases ai with
        | true => rw [if_pos rfl, hidx rfl, finalName_true_eq]
        | false => rw [if_neg (by simp), finalName_false]
      have hfreeD : finalName ai (S.length + 1) t ∉ disk :=
        final_fresh hgood hT hsp hdisk
      have hT' : allT = (S ++ [t]) ++ entryTitles es := by
        rw [hT, List.append_assoc]
        rfl
      have hidx' : ai = true → (if ai then idx + 1 else idx) = (S ++ [t]).length + 1 := by
        intro hai
        subst hai
        rw [if_pos rfl, hidx rfl, List.length_append]
        simp
      have husedsub : ∀ n ∈ usedNames ai 1 S, n ∈ usedNames ai 1 (S ++ [t]) := by
        intro n hn
        rw [usedNames_append]
        exact List.mem_append_left _ hn
      have hnm_mem : finalName ai (S.length + 1) t ∈ usedNames ai 1 (S ++ [t]) := by
        rw [usedNames_append]
        apply List.mem_append_right
        have harith : 1 + S.length = S.length + 1 := by omega
        rw [harith]
        exact List.mem_singleton.mpr rfl
      have hcounts' : ∀ p ∈ ((t ++ ".html", 0 + 1) :: counts),
          ∃ s ∈ S ++ [t], p.1 = s ++ ".html" := by
        intro p hp
        rcases List.mem_cons.mp hp with rfl | hp'
        · exact ⟨t, List.mem_append_right _ (List.mem_singleton.mpr rfl), rfl⟩
        · obtain ⟨s, hsS, hps⟩ := hcounts p hp'
          exact ⟨s, List.mem_append_left _ hsS, hps⟩
      have hlen : (S ++ [t]).length = S.length + 1 := by simp
      simp only [renameAux, hG, hlook, Option.getD_none, Nat.lt_irrefl, if_false, hnm]
      rw [if_neg hfreeD]
      cases horacle : oracle e.filename (finalName ai (S.length + 1) t) with
      | none =>
        have hdisk' : ∀ n ∈ List.insert (finalName ai (S.length + 1) t)
            (disk.erase e.filename), n ∈ disk0 ∨ n ∈ usedNames ai 1 (S ++ [t]) := by
          intro n hn
          rcases List.mem_insert_iff.mp hn with rfl | hn'
          · exact Or.inr hnm_mem
          · rcases hdisk n (List.mem_of_mem_erase hn') with h0 | hu
            · exact Or.inl h0
            · exact Or.inr (husedsub _ hu)
        have hrec := ih (S ++ [t]) _ _ _ hT' hidx' hdisk' hcounts'
        rw [hlen] at hrec
        simp only [horacle, hE, hrec, expectedOutcomes, List.filterMap_cons, renProj,
          procSkipProj]
      | some msg =>
        have hdisk' : ∀ n ∈ disk, n ∈ disk0 ∨ n ∈ usedNames ai 1 (S ++ [t]) :=
          fun n hn => (hdisk n hn).imp id (husedsub n)
        have hrec := ih (S ++ [t]) _ _ _ hT' hidx' hdisk' hcounts'
        rw [hlen] at hrec
        simp only [horacle, hE, hrec, expectedOutcomes, List.filterMap_cons, renProj,
          procSkipProj]

theorem skip_fst_eq (l : List RenameOutcome) :
    (l.filterMap procSkipProj).map Prod.fst = (l.filterMap classSkipProj).map Prod.fst := by
  induction l with
  | nil => rfl
  | cons o os ih => cases o <;> simp [procSkipProj, classSkipProj, ih]

theorem generateAux_names_perm (oracle : String → String → Option String) (ai : Bool) :
    ∀ (rest : List FileEntry) (disk assigned : List String) (idx : Nat),
      ((FileRenamer.generateAux oracle ai rest disk assigned idx).1.map Prod.fst ++
        (FileRenamer.generateAux oracle ai rest disk assigned idx).2.map Prod.fst).Perm
        (rest.map FileEntry.filename) := by
  intro rest
  induction rest with
  | nil => intro disk assigned idx; simp [FileRenamer.generateAux]
  | cons e es ih =>
    intro disk assigned idx
    simp only [FileRenamer.generateAux, List.map_cons]
    repeat' split
    all_goals
      first
        | exact List.perm_middle.trans ((ih _ _ _).cons _)
        | (simp only [List.map_cons, List.cons_append]
           exact ((ih _ _ _).cons _))

theorem renameAux_names_perm (oracle : String → String → Option String) (ai : Bool) :
    ∀ (rest : List FileEntry) (disk : List String) (counts : List (String × Nat))
      (idx : Nat),
      ((renameAux oracle ai rest disk counts idx).1.map Prod.fst ++
        (renameAux oracle ai rest disk counts idx).2.map Prod.fst).Perm
        (rest.map FileEntry.filename) := by
  intro rest
  induction rest with
  | nil => intro disk counts idx; simp [renameAux]
  | cons e es ih =>
    intro disk counts idx
    simp only [renameAux, List.map_cons]
    repeat' split
    all_goals
      first
        | exact List.perm_middle.trans ((ih _ _ _).cons _)
        | (simp only [List.map_cons, List.cons_append]
           exact ((ih _ _ _).cons _))

/-- Claim C9: in both implementations, each scanned entry produces
exactly one outcome: the originals of the renamed and skipped sequences
together are a permutation of the scanned filenames, for every input,
directory state, indexing flag and rename oracle. -/
theorem c9_outcome_exactly_once (entries : List FileEntry) (disk0 : List String)
    (add_index : Bool) (oracle : String → String → Option String) :
    ((rename_html_files entries disk0 add_index oracle).1.map Prod.fst ++
      (rename_html_files entries disk0 add_index oracle).2.map Prod.fst).Perm
      (entries.map FileEntry.filename) ∧
    ((FileRenamer.perform_renaming entries disk0 add_index oracle).1.map Prod.fst ++
      (FileRenamer.perform_renaming entries disk0 add_index oracle).2.map Prod.fst).Perm
      (entries.map FileEntry.filename) := by
  have hsortmap : ((sort_files_by_creation_date entries).map FileEntry.filename).Perm
      (entries.map FileEntry.filename) :=
    (List.perm_insertionSort ctimeLE entries).map FileEntry.filename
  constructor
  · exact (renameAux_names_perm oracle add_index
      (sort_files_by_creation_date entries) disk0 [] 1).trans hsortmap
  · exact (generateAux_names_perm oracle add_index
      (sort_files_by_creation_date entries) disk0 [] 1).trans hsortmap

/-- Claim C1 counterexample: on a directory holding `a.html` and
`b.html`, both with extracted title `Hello`, with indexing off and every
rename succeeding, the procedural script renames the second file to
`Hello_1.html` while the class-based version renames it to
`Hello_2.html`: the two implementations do not produce equal result
sequences. -/
theorem c1_counterexample :
    (rename_html_files [⟨"a.html", 1, .found "Hello"⟩, ⟨"b.html", 2, .found "Hello"⟩]
        ["a.html", "b.html"] false (fun _ _ => none)).1 ≠
      (FileRenamer.perform_renaming
        [⟨"a.html", 1, .found "Hello"⟩, ⟨"b.html", 2, .found "Hello"⟩]
        ["a.html", "b.html"] false (fun _ _ => none)).1 := by
  decide

/-- Claim C1 (amended): on every collision-free run — extracted titles
pairwise distinct and non-empty, and no candidate final name already
present in the directory — the two implementations produce the same
renamed sequence and skip the same originals in the same order, for
every directory state, title sequence, indexing flag and rename
oracle. On runs with duplicate titles or on-disk conflicts they
diverge, as the counterexample shows. -/
theorem c1_amended (entries : List FileEntry) (disk0 : List String) (add_index : Bool)
    (oracle : String → String → Option String) (h : goodRun entries disk0 add_index) :
    (rename_html_files entries disk0 add_index oracle).1 =
        (FileRenamer.perform_renaming entries disk0 add_index oracle).1 ∧
      (rename_html_files entries disk0 add_index oracle).2.map Prod.fst =
        (FileRenamer.perform_renaming entries disk0 add_index oracle).2.map Prod.fst := by
  have hclass := generateAux_clean oracle add_index disk0
    (entryTitles (sort_files_by_creation_date entries)) h
    (sort_files_by_creation_date entries) [] disk0 [] 1 rfl (fun _ => rfl)
    (fun n hn => Or.inl hn) (fun n hn => absurd hn (List.not_mem_nil n))
  have hproc := renameAux_clean oracle add_index disk0
    (entryTitles (sort_files_by_creation_date entries)) h
    (sort_files_by_creation_date entries) [] disk0 [] 1 rfl (fun _ => rfl)
    (fun n hn => Or.inl hn) (fun p hp => absurd hp (List.not_mem_nil p))
  unfold rename_html_files FileRenamer.perform_renaming FileRenamer.generate_new_filenames
  rw [hproc, hclass]
  exact ⟨rfl, skip_fst_eq _⟩

theorem c1_amended_witness :
    goodRun [⟨"a.html", 1, .found "Intro"⟩, ⟨"b.html", 2, .found "World"⟩]
        ["a.html", "b.html"] false ∧
      (rename_html_files [⟨"a.html", 1, .found "Intro"⟩, ⟨"b.html", 2, .found "World"⟩]
          ["a.html", "b.html"] false (fun _ _ => none)).1 =
        (FileRenamer.perform_renaming
          [⟨"a.html", 1, .found "Intro"⟩, ⟨"b.html", 2, .found "World"⟩]
          ["a.html", "b.html"] false (fun _ _ => none)).1 :=
  ⟨by decide, (c1_amended _ _ _ _ (by decide)).1⟩

theorem sorted_key_unique :
    ∀ (l1 l2 : List FileEntry), l1.Perm l2 → List.Sorted ctimeLE l1 →
      List.Sorted ctimeLE l2 → (l1.map FileEntry.ctime).Nodup → l1 = l2 := by
  intro l1
  induction l1 with
  | nil =>
    intro l2 hp _ _ _
    exact (hp.symm.eq_nil).symm
  | cons a as ih =>
    intro l2 hp hs1 hs2 hnd
    cases l2 with
    | nil => exact absurd hp.eq_nil (by simp)
    | cons b bs =>
      obtain ⟨hrel1, hs1'⟩ := List.sorted_cons.mp hs1
      obtain ⟨hrel2, hs2'⟩ := List.sorted_cons.mp hs2
      obtain ⟨hnotin, hnd'⟩ := List.nodup_cons.mp hnd
      have hab : a = b := by
        have haIn : a ∈ b :: bs := hp.subset (List.mem_cons_self _ _)
        rcases List.mem_cons.mp haIn with h | h
        · exact h
        · have hba : ctimeLE b a := hrel2 a h
          have hbIn : b ∈ a :: as := hp.symm.subset (List.mem_cons_self _ _)
          rcases List.mem_cons.mp hbIn with h' | h'
          · exact h'.symm
          · have hab' : ctimeLE a b := hrel1 b h'
            have hceq : a.ctime = b.ctime := Nat.le_antisymm hab' hba
            exfalso
            apply hnotin
            have hmem : b.ctime ∈ as.map FileEntry.ctime := List.mem_map_of_mem _ h'
            rw [← hceq] at hmem
            exact hmem
      subst hab
      have hp' : as.Perm bs := (List.perm_cons a).mp hp
      rw [ih bs hp' hs1' hs2' hnd']

theorem expected_ok_renamed :
    ∀ (l : List FileEntry) (k : Nat),
      (expectedOutcomes (fun _ _ => none) true k l).filterMap renProj = enumTitled k l := by
  intro l
  induction l with
  | nil => intro k; rfl
  | cons e es ih =>
    intro k
    cases hE : extract_title e.parse with
    | none => simp [expectedOutcomes, enumTitled, hE, ih, renProj, List.filterMap_cons]
    | some t =>
      simp [expectedOutcomes, enumTitled, hE, ih, renProj, finalName, List.filterMap_cons]

theorem expected_filtered (oracle : String → String → Option String) :
    ∀ (l : List FileEntry) (k : Nat),
      (expectedOutcomes oracle true k l).filterMap renProj = okFiltered oracle k l := by
  intro l
  induction l with
  | nil => intro k; rfl
  | cons e es ih =>
    intro k
    cases hE : extract_title e.parse with
    | none => simp [expectedOutcomes, okFiltered, hE, ih, renProj, List.filterMap_cons]
    | some t =>
      cases horacle : oracle e.filename (finalName true k t) with
      | none => simp [expectedOutcomes, okFiltered, hE, horacle, ih, renProj]
      | some m => simp [expectedOutcomes, okFiltered, hE, horacle, ih, renProj]

/-- Claim C5: files are processed in ascending creation-time order —
the pipeline's sort is a permutation of the scan, sorted by `ctime`,
and is the same for every listing order once creation times are
distinct — and on a collision-free indexed run where every rename
succeeds, the class-based pipeline numbers exactly the title-bearing
files 1, 2, 3, … in that order, files without a title consuming no
index slot. -/
theorem c5_ordering_and_indexing (entries : List FileEntry) (disk0 : List String) :
    (sort_files_by_creation_date entries).Perm entries ∧
      List.Sorted ctimeLE (sort_files_by_creation_date entries) ∧
      (∀ entries' : List FileEntry, entries'.Perm entries →
        (entries.map FileEntry.ctime).Nodup →
        sort_files_by_creation_date entries' = sort_files_by_creation_date entries) ∧
      (goodRun entries disk0 true →
        (FileRenamer.perform_renaming entries disk0 true (fun _ _ => none)).1 =
          enumTitled 1 (sort_files_by_creation_date entries)) := by
  refine ⟨List.perm_insertionSort ctimeLE entries,
    List.sorted_insertionSort ctimeLE entries, ?_, ?_⟩
  · intro entries' hperm hnd
    apply sorted_key_unique
    · exact (List.perm_insertionSort ctimeLE entries').trans
        (hperm.trans (List.perm_insertionSort ctimeLE entries).symm)
    · exact List.sorted_insertionSort ctimeLE entries'
    · exact List.sorted_insertionSort ctimeLE entries
    · have h1 : ((sort_files_by_creation_date entries').map FileEntry.ctime).Perm
          (entries.map FileEntry.ctime) :=
        ((List.perm_insertionSort ctimeLE entries').trans hperm).map FileEntry.ctime
      exact h1.nodup_iff.mpr hnd
  · intro h
    have hclass := generateAux_clean (fun _ _ => none) true disk0
      (entryTitles (sort_files_by_creation_date entries)) h
      (sort_files_by_creation_date entries) [] disk0 [] 1 rfl (fun _ => rfl)
      (fun n hn => Or.inl hn) (fun n hn => absurd hn (List.not_mem_nil n))
    unfold FileRenamer.perform_renaming FileRenamer.generate_new_filenames
    rw [hclass]
    exact expected_ok_renamed _ 1

theorem c5_ordering_and_indexing_witness :
    goodRun [⟨"f3", 30, .found "C"⟩, ⟨"f1", 10, .found "A"⟩, ⟨"f2", 20, .found "B"⟩]
        ["x.html"] true ∧
      (FileRenamer.perform_renaming
          [⟨"f3", 30, .found "C"⟩, ⟨"f1", 10, .found "A"⟩, ⟨"f2", 20, .found "B"⟩]
          ["x.html"] true (fun _ _ => none)).1 =
        [("f1", "1. A.html"), ("f2", "2. B.html"), ("f3", "3. C.html")] := by
  refine ⟨by decide, ?_⟩
  rw [(c5_ordering_and_indexing
    [⟨"f3", 30, .found "C"⟩, ⟨"f1", 10, .found "A"⟩, ⟨"f2", 20, .found "B"⟩]
    ["x.html"]).2.2.2 (by decide)]
  decide

/-- Claim C10: in the class-based implementation with indexing on, the
running index is incremented for every title-bearing file before its
rename is attempted, so on a collision-free run the `k`-th
title-bearing file (in creation-time order) is attempted under index
`k` whatever the rename oracle did on the earlier files; a file whose
rename fails still consumes its slot, leaving a gap in the indices of
the successfully renamed files. -/
theorem c10_index_gap (entries : List FileEntry) (disk0 : List String)
    (oracle : String → String → Option String) (h : goodRun entries disk0 true) :
    (FileRenamer.perform_renaming entries disk0 true oracle).1 =
      okFiltered oracle 1 (sort_files_by_creation_date entries) := by
  have hclass := generateAux_clean oracle true disk0
    (entryTitles (sort_files_by_creation_date entries)) h
    (sort_files_by_creation_date entries) [] disk0 [] 1 rfl (fun _ => rfl)
    (fun n hn => Or.inl hn) (fun n hn => absurd hn (List.not_mem_nil n))
  unfold FileRenamer.perform_renaming FileRenamer.generate_new_filenames
  rw [hclass]
  exact expected_filtered oracle _ 1

theorem c10_index_gap_witness :
    goodRun [⟨"a.html", 1, .found "Intro"⟩, ⟨"b.html", 2, .found "World"⟩]
        ["a.html", "b.html"] true ∧
      (FileRenamer.perform_renaming
          [⟨"a.html", 1, .found "Intro"⟩, ⟨"b.html", 2, .found "World"⟩]
          ["a.html", "b.html"] true
          (fun o _ => if o = "a.html" then some "fail" else none)).1 =
        [("b.html", "2. World.html")] := by
  refine ⟨by decide, ?_⟩
  rw [c10_index_gap _ _ _ (by decide)]
  decide

/-- Claim C8 counterexample: in the procedural implementation a failed
rename is recorded as `(original, target)` with no error message: two
runs whose renames fail with different messages produce identical
outcome sequences, so the Skipped outcome cannot carry the underlying
error message. -/
theorem c8_counterexample :
    rename_html_files [⟨"a.html", 1, .found "Hello"⟩] ["a.html"] false
        (fun _ _ => some "Permission denied") =
      rename_html_files [⟨"a.html", 1, .found "Hello"⟩] ["a.html"] false
        (fun _ _ => some "Disk quota exceeded") ∧
      ("Permission denied" : String) ≠ "Disk quota exceeded" := by
  refine ⟨by decide, by decide⟩

/-- Claim C8 (amended): a parse or read error during title extraction
is treated identically to a missing heading in both implementations
(the file is skipped, not a fault); every scanned file produces exactly
one outcome whatever the rename oracle does, so no error for one file
aborts processing of any other; and in the class-based implementation
a failed rename yields a Skipped outcome carrying the underlying error
message. The procedural implementation's skipped tuple carries the
attempted target name instead of the message (see the
counterexample). -/
theorem c8_error_locality :
    (∀ m, extract_title (.err m) = none ∧ get_new_filename (.err m) = none ∧
      extract_title (.err m) = extract_title .absent ∧
      get_new_filename (.err m) = get_new_filename .absent) ∧
    (∀ (entries : List FileEntry) (disk0 : List String) (ai : Bool)
        (oracle : String → String → Option String),
      (rename_html_files entries disk0 ai oracle).1.length +
          (rename_html_files entries disk0 ai oracle).2.length = entries.length ∧
        (FileRenamer.perform_renaming entries disk0 ai oracle).1.length +
          (FileRenamer.perform_renaming entries disk0 ai oracle).2.length =
            entries.length) ∧
    (∀ (orig : String) (ct : Nat) (txt msg : String) (disk0 : List String) (ai : Bool)
        (oracle : String → String → Option String),
      pyStrip txt ≠ "" →
      FilenameSanitizer.sanitize (pyStrip txt) ≠ "" →
      (FilenameSanitizer.sanitize (pyStrip txt) ++ ".html") ∉ disk0 →
      oracle orig (finalName ai 1 (FilenameSanitizer.sanitize (pyStrip txt))) = some msg →
      FileRenamer.perform_renaming [⟨orig, ct, .found txt⟩] disk0 ai oracle =
        ([], [(orig, msg)])) := by
  refine ⟨fun m => ⟨rfl, rfl, rfl, rfl⟩, ?_, ?_⟩
  · intro entries disk0 ai oracle
    have hsl : (sort_files_by_creation_date entries).length = entries.length :=
      (List.perm_insertionSort ctimeLE entries).length_eq
    constructor
    · have hp := renameAux_names_perm oracle ai (sort_files_by_creation_date entries)
        disk0 [] 1
      have hlen := hp.length_eq
      simp only [List.length_append, List.length_map] at hlen
      unfold rename_html_files
      omega
    · have hp := generateAux_names_perm oracle ai (sort_files_by_creation_date entries)
        disk0 [] 1
      have hlen := hp.length_eq
      simp only [List.length_append, List.length_map] at hlen
      unfold FileRenamer.perform_renaming FileRenamer.generate_new_filenames
      omega
  · intro orig ct txt msg disk0 ai oracle hstrip hne hnd horacle
    have hE : extract_title (ParseOutcome.found txt) =
        some (FilenameSanitizer.sanitize (pyStrip txt)) := by
      simp [extract_title, hstrip]
    unfold FileRenamer.perform_renaming FileRenamer.generate_new_filenames
    have hsorted : sort_files_by_creation_date [(⟨orig, ct, .found txt⟩ : FileEntry)] =
        [⟨orig, ct, .found txt⟩] := rfl
    rw [hsorted]
    simp only [FileRenamer.generateAux, hE, if_neg hne]
    rw [resolveName_of_free (List.not_mem_nil _) hnd]
    have hnm : (if ai then
        natRepr 1 ++ ". " ++ (FilenameSanitizer.sanitize (pyStrip txt) ++ ".html")
        else FilenameSanitizer.sanitize (pyStrip txt) ++ ".html") =
        finalName ai 1 (FilenameSanitizer.sanitize (pyStrip txt)) := by
      cases ai with
      | true => rw [if_pos rfl, finalName_true_eq]
      | false => rw [if_neg (by simp), finalName_false]
    rw [hnm, horacle]

theorem c8_error_locality_witness :
    pyStrip "Hello" ≠ "" ∧
      FileRenamer.perform_renaming [⟨"a.html", 1, .found "Hello"⟩] ["a.html"] false
          (fun _ _ => some "EACCES") = ([], [("a.html", "EACCES")]) :=
  ⟨by decide, c8_error_locality.2.2 "a.html" 1 "Hello" "EACCES" ["a.html"] false
    (fun _ _ => some "EACCES") (by decide) (by decide) (by decide) rfl⟩

/-- Claim C4 counterexample: in the class-based implementation with
indexing on, the name reserved in AssignedNames is the index-prefixed
`1. Hello.html`, not the un-prefixed `Hello.html`; consequently a
second file with the same title does not collide with the first file's
reservation even though the first rename failed — it resolves to the
un-suffixed `Hello.html` and is renamed `2. Hello.html`, not
`2. Hello_2.html`. -/
theorem c4_counterexample :
    FileRenamer.perform_renaming
        [⟨"a.html", 1, .found "Hello"⟩, ⟨"b.html", 2, .found "Hello"⟩]
        ["a.html", "b.html"] true
        (fun o _ => if o = "a.html" then some "EACCES" else none) =
      ([("b.html", "2. Hello.html")], [("a.html", "EACCES")]) ∧
      ("2. Hello.html" : String) ≠ "2. Hello_2.html" := by
  refine ⟨by decide, by decide⟩

/-- Claim C4 (amended): in the class-based implementation, the name
added to AssignedNames before the physical rename is attempted is the
final name, carrying the index prefix when indexing is on (the prefix
is still prepended only after collision resolution). Consequently with
indexing disabled, for two files with the same extracted title, the
second file's candidate collides with the first file's reserved name
even when the first file's rename failed, and the second file receives
the `_2`-suffixed name; with indexing enabled the second file's
un-prefixed candidate does not collide with the first file's prefixed
reservation (see the counterexample). -/
theorem c4_reservation (orig1 orig2 : String) (c1 c2 : Nat) (txt msg : String)
    (disk0 : List String) (oracle : String → String → Option String)
    (hc : c1 ≤ c2)
    (hstrip : pyStrip txt ≠ "")
    (hne : FilenameSanitizer.sanitize (pyStrip txt) ≠ "")
    (hnd1 : (FilenameSanitizer.sanitize (pyStrip txt) ++ ".html") ∉ disk0)
    (hnd2 : suffixCand (FilenameSanitizer.sanitize (pyStrip txt) ++ ".html") 2 ∉ disk0)
    (hfail : oracle orig1 (FilenameSanitizer.sanitize (pyStrip txt) ++ ".html") = some msg)
    (hok : oracle orig2
      (suffixCand (FilenameSanitizer.sanitize (pyStrip txt) ++ ".html") 2) = none) :
    FileRenamer.perform_renaming
        [⟨orig1, c1, .found txt⟩, ⟨orig2, c2, .found txt⟩] disk0 false oracle =
      ([(orig2, suffixCand (FilenameSanitizer.sanitize (pyStrip txt) ++ ".html") 2)],
        [(orig1, msg)]) := by
  have hE : extract_title (ParseOutcome.found txt) =
      some (FilenameSanitizer.sanitize (pyStrip txt)) := by
    simp [extract_title, hstrip]
  have hsorted : sort_files_by_creation_date
      [(⟨orig1, c1, .found txt⟩ : FileEntry), ⟨orig2, c2, .found txt⟩] =
      [⟨orig1, c1, .found txt⟩, ⟨orig2, c2, .found txt⟩] := by
    simp [sort_files_by_creation_date, List.insertionSort, List.orderedInsert, ctimeLE, hc]
  have hres1 : resolveName [] disk0 (FilenameSanitizer.sanitize (pyStrip txt) ++ ".html") =
      FilenameSanitizer.sanitize (pyStrip txt) ++ ".html" :=
    resolveName_of_free (List.not_mem_nil _) hnd1
  have hcand2ne : suffixCand (FilenameSanitizer.sanitize (pyStrip txt) ++ ".html") 2 ≠
      FilenameSanitizer.sanitize (pyStrip txt) ++ ".html" := by
    intro h
    have hl := congrArg String.length h
    rw [suffixCand_length (by omega)] at hl
    have := natRepr_length_pos 2
    omega
  have hres2 : resolveName [FilenameSanitizer.sanitize (pyStrip txt) ++ ".html"] disk0
      (FilenameSanitizer.sanitize (pyStrip txt) ++ ".html") =
      suffixCand (FilenameSanitizer.sanitize (pyStrip txt) ++ ".html") 2 := by
    apply resolveName_min
    · omega
    · exact ⟨fun hmem => hcand2ne (List.mem_singleton.mp hmem), hnd2⟩
    · intro j hj1 hj2
      have hj : j = 1 := by omega
      subst hj
      rw [suffixCand_one]
      exact Or.inl (List.mem_singleton.mpr rfl)
  unfold FileRenamer.perform_renaming FileRenamer.generate_new_filenames
  rw [hsorted]
  simp only [FileRenamer.generateAux, hE, if_neg hne, hres1, hres2, Bool.false_eq_true,
    if_false, hfail, hok]

theorem c4_reservation_witness :
    pyStrip "Hello" ≠ "" ∧
      FileRenamer.perform_renaming
          [⟨"a.html", 1, .found "Hello"⟩, ⟨"b.html", 2, .found "Hello"⟩]
          ["a.html", "b.html"] false
          (fun o _ => if o = "a.html" then some "EACCES" else none) =
        ([("b.html", "Hello_2.html")], [("a.html", "EACCES")]) := by
  refine ⟨by decide, ?_⟩
  have h := c4_reservation "a.html" "b.html" 1 2 "Hello" "EACCES" ["a.html", "b.html"]
    (fun o _ => if o = "a.html" then some "EACCES" else none)
    (by omega) (by decide) (by decide) (by decide) (by decide) (by decide) (by decide)
  rw [h]
  decide
